import Mathlib

/-! # Verification of the chunking and indexing pipeline

Shallow embedding of `web/scripts/chunk.ts` and the row-processing core of
`web/scripts/build-index.ts` (class `RAGIndexer`), together with theorems
settling the stated properties of the chunker and the indexer.

Strings are modelled by Lean `String`; JavaScript regular-expression
operations (`split(/(?<=[.!?])\s+/)`, `split(/\s+/)`, `trim()`) are realized
as explicit scans over the character list.  JavaScript string truthiness
(`str ? a : b`) is nonemptiness.
-/

/-- Whitespace class used by the source's `\s` regex and `trim()`; the inputs
of interest only use the ASCII whitespace characters. -/
def isSpaceJS (c : Char) : Bool :=
  c = ' ' || c = '\t' || c = '\n' || c = '\r' || c = '\x0b' || c = '\x0c'

/-- Sentence-terminating punctuation of the lookbehind `(?<=[.!?])`. -/
def isSentenceEnd (c : Char) : Bool :=
  c = '.' || c = '!' || c = '?'

/-- Whether a character list starts with a whitespace character. -/
def firstIsSpace : List Char → Bool
  | [] => false
  | c :: _ => isSpaceJS c

/-- Trim leading and trailing whitespace from a character list (JS `trim()`). -/
def trimChars (l : List Char) : List Char :=
  ((l.dropWhile isSpaceJS).reverse.dropWhile isSpaceJS).reverse

/-- JS `String.prototype.trim`. -/
def trimString (s : String) : String :=
  String.mk (trimChars s.data)

/-- Dropping a whitespace run never lengthens the list (termination helper). -/
theorem dropWhile_len_le (p : Char → Bool) (l : List Char) :
    (l.dropWhile p).length ≤ l.length :=
  (List.dropWhile_suffix p).length_le

/-- Scan for `text.split(/(?<=[.!?])\s+/)`: a separator is a maximal
whitespace run immediately preceded by `.`, `!` or `?`. -/
def sentenceSplitAux : List Char → List Char → List (List Char)
  | [], acc => [acc.reverse]
  | c :: rest, acc =>
    if isSentenceEnd c && firstIsSpace rest then
      (c :: acc).reverse :: sentenceSplitAux (rest.dropWhile isSpaceJS) []
    else
      sentenceSplitAux rest (c :: acc)
termination_by l _ => l.length
decreasing_by
  · simp only [List.length_cons]
    exact Nat.lt_succ_of_le (dropWhile_len_le isSpaceJS rest)
  · simp [Nat.lt_succ_self]

/-- Embedding of `splitIntoSentences` from `chunk.ts`: split at sentence
boundaries, trim each piece, drop empty pieces. -/
def splitIntoSentences (text : String) : List String :=
  (((sentenceSplitAux text.data []).map (fun l => String.mk (trimChars l))).filter
    (fun s => 0 < s.length))

/-- Scan for `str.split(/\s+/)`: pieces between maximal whitespace runs,
keeping the empty leading/trailing pieces JavaScript produces. -/
def splitWSAux : List Char → List Char → List (List Char)
  | [], acc => [acc.reverse]
  | c :: rest, acc =>
    if isSpaceJS c then
      acc.reverse :: splitWSAux (rest.dropWhile isSpaceJS) []
    else
      splitWSAux rest (c :: acc)
termination_by l _ => l.length
decreasing_by
  · simp only [List.length_cons]
    exact Nat.lt_succ_of_le (dropWhile_len_le isSpaceJS rest)
  · simp [Nat.lt_succ_self]

/-- JS `str.split(/\s+/)` on a string. -/
def splitWhitespace (s : String) : List String :=
  (splitWSAux s.data []).map String.mk

/-- The source's space join with string truthiness:
`(t ? t + ' ' : '') + w`. -/
def joinIfNonempty (t w : String) : String :=
  if t = "" then w else t ++ " " ++ w

/-- Embedding of `getOverlapText` from `chunk.ts`. -/
def getOverlapText (previousChunk : String) (overlapSize : Nat) : String :=
  if previousChunk = "" || overlapSize == 0 then ""
  else
    let words := splitWhitespace previousChunk
    if words.length ≤ overlapSize then previousChunk
    else String.intercalate " " (words.drop (words.length - overlapSize))

/-- Loop of `mergeSmallChunks` (`for (let i = 1; ...)`), carrying the
already-emitted list and the accumulating chunk. -/
def mergeLoop (minSize : Nat) : List String → List String → String → List String
  | [], merged, currentChunk => merged ++ [currentChunk]
  | nextChunk :: rest, merged, currentChunk =>
    if currentChunk.length + nextChunk.length < minSize then
      mergeLoop minSize rest merged (currentChunk ++ " " ++ nextChunk)
    else
      mergeLoop minSize rest (merged ++ [currentChunk]) nextChunk

/-- Embedding of `mergeSmallChunks` from `chunk.ts`. -/
def mergeSmallChunks (chunks : List String) (minSize : Nat) : List String :=
  match chunks with
  | [] => []
  | c0 :: rest => mergeLoop minSize rest [] c0

/-- In-place append to the final array element,
`chunks[chunks.length - 1] += ' ' + currentChunk`. -/
def appendToLast : List String → String → List String
  | [], currentChunk => [currentChunk]
  | [last], currentChunk => [last ++ " " ++ currentChunk]
  | x :: rest, currentChunk => x :: appendToLast rest currentChunk

/-- End-of-loop flush of `chunkText` (`// Add the last chunk if it meets
minimum size`). -/
def flushBuffer (minSize : Nat) (chunks : List String) (currentChunk : String) :
    List String :=
  if currentChunk.length ≥ minSize then chunks ++ [currentChunk]
  else if 0 < chunks.length then appendToLast chunks currentChunk
  else chunks ++ [currentChunk]

/-- Word-level fallback loop of `chunkText` (`for (const word of words)`). -/
def wordLoop (minSize maxSize : Nat) :
    List String → String → List String → List String × String
  | chunks, tempChunk, [] => (chunks, tempChunk)
  | chunks, tempChunk, word :: rest =>
    if (tempChunk ++ " " ++ word).length ≤ maxSize then
      wordLoop minSize maxSize chunks (joinIfNonempty tempChunk word) rest
    else if tempChunk.length ≥ minSize then
      wordLoop minSize maxSize (chunks ++ [tempChunk]) word rest
    else
      wordLoop minSize maxSize chunks (joinIfNonempty tempChunk word) rest

/-- Mutable state of the sentence loop in `chunkText`: the emitted chunks and
the running buffer.  (The source also assigns a `previousChunk` variable, but
never reads it, so it is not part of the state.) -/
structure ChunkState where
  chunks : List String
  currentChunk : String
deriving DecidableEq, Repr

/-- Body of the sentence loop of `chunkText` (`for (const sentence of
sentences)`): greedy accumulation up to `targetSize`, then the `maxSize`
force-split with its word-level fallback. -/
def sentenceStep (targetSize minSize maxSize : Nat) (st : ChunkState)
    (sentence : String) : ChunkState :=
  let potentialChunk := joinIfNonempty st.currentChunk sentence
  let st1 : ChunkState :=
    if potentialChunk.length ≤ targetSize then
      { st with currentChunk := potentialChunk }
    else if st.currentChunk.length ≥ minSize then
      { chunks := st.chunks ++ [st.currentChunk], currentChunk := sentence }
    else
      { st with currentChunk := potentialChunk }
  if st1.currentChunk.length > maxSize then
    if st1.currentChunk.length ≥ minSize then
      { chunks := st1.chunks ++ [st1.currentChunk], currentChunk := sentence }
    else
      let words := splitWhitespace st1.currentChunk
      let packed := wordLoop minSize maxSize st1.chunks "" words
      { chunks := packed.1, currentChunk := packed.2 }
  else st1

/-- Overlap pass over the tail of the chunk list; `prev` is the pre-overlap
predecessor `chunks[i - 1]`. -/
def addOverlapAux (overlap : Nat) : String → List String → List String
  | _, [] => []
  | prev, c :: rest =>
    let overlapText := getOverlapText prev overlap
    let c' := if overlapText = "" then c else overlapText ++ " " ++ c
    c' :: addOverlapAux overlap c rest

/-- Overlap pass of `chunkText` (`// Add overlap text to maintain context`):
the first chunk is unchanged, later chunks are prefixed from their
pre-overlap predecessor. -/
def chunksWithOverlap (overlap : Nat) (chunks : List String) : List String :=
  match chunks with
  | [] => []
  | c :: rest => c :: addOverlapAux overlap c rest

/-- Embedding of `chunkText` from `chunk.ts`. -/
def chunkText (text : String) (targetSize : Nat := 1200) (overlap : Nat := 200)
    (minSize : Nat := 800) (maxSize : Nat := 1500) : List String :=
  if text.length ≤ targetSize then [text]
  else
    let sentences := splitIntoSentences text
    let st := sentences.foldl (sentenceStep targetSize minSize maxSize)
      { chunks := [], currentChunk := "" }
    let chunks := flushBuffer minSize st.chunks st.currentChunk
    mergeSmallChunks (chunksWithOverlap overlap chunks) minSize

/-! ## Indexer model

The row-processing core of `build-index.ts` (`RAGIndexer.processRow` and the
batch loop of `RAGIndexer.processTable`).  The external collaborators —
table adapters (`tables.ts`), the SHA-256 fingerprinter (Node `crypto`), the
Supabase-backed store (`supabase.ts`) and the OpenAI embedding provider
(`lib/openai.ts`) — are modelled as an explicit environment of functions.
Fallible store operations return `Except String`; an embedding-provider
failure is `Option.none`.  Floating-point vectors are modelled as `List Int`
(no claim depends on the numeric values, only on presence). -/

/-- Embedding vector of the provider (`number[]` in the source). -/
abbrev Embedding := List Int

/-- Opaque raw source row; the model only passes rows to `transformRow`. -/
abbrev Row := Nat

/-- The `SourceDocument` interface of `tables.ts`. -/
structure SourceDocument where
  source_table : String
  source_id : String
  title : Option String
  content : String
deriving DecidableEq, Repr

/-- The fields of a stored `Chunk` row that `processRow` reads back. -/
structure StoredChunk where
  content : String
  embedding : Option Embedding
deriving DecidableEq, Repr

/-- The `IndexingStats` counters of `build-index.ts`. -/
structure IndexingStats where
  documentsProcessed : Nat
  chunksCreated : Nat
  embeddingsWritten : Nat
  errors : Nat
deriving DecidableEq, Repr

/-- The `--reembed` strategies accepted by the CLI. -/
inductive ReembedMode
  | none
  | missing
  | all
deriving DecidableEq, Repr

/-- External collaborators of the indexer: row transformation, content
hashing, the document/chunk store, and the embedding provider. -/
structure IndexerEnv where
  transformRow : String → Row → Except String SourceDocument
  hash : String → String
  getDocumentHash : String → String → Except String (Option String)
  upsertDocument : SourceDocument → String → Except String String
  getChunk : String → Nat → Except String (Option StoredChunk)
  embed : String → Option Embedding
  upsertChunk : String → Nat → String → Option Embedding → Except String String

/-- The per-chunk recompute condition of `processRow`:
`reembed === 'all' || reembed === 'missing' || !existingChunk?.embedding`
(`existingChunk?.embedding` is truthy exactly when a chunk is stored and its
embedding is non-null; an array, even empty, is truthy). -/
def chunkNeedsEmbedding (mode : ReembedMode) (existingChunk : Option StoredChunk) :
    Bool :=
  mode == ReembedMode.all || mode == ReembedMode.missing ||
    (existingChunk.bind StoredChunk.embedding).isNone

/-- Outcome of the per-chunk loop of `processRow`: the statistics after the
loop, the chunk upserts performed (index, content, embedding), the number of
embedding-provider calls made, and the first uncaught exception if any. -/
structure ChunksResult where
  stats : IndexingStats
  chunkUpserts : List (Nat × String × Option Embedding)
  embedCalls : Nat
  error : Option String
deriving DecidableEq, Repr

/-- The embedding decision of one chunk iteration, with the provider call and
its swallowed failure (`try { embedding = await embed(...);
tableStats.embeddingsWritten++; } catch { /* continue */ }` and the `else if`
reuse): the resulting embedding value together with the updated statistics. -/
def embedStep (env : IndexerEnv) (mode : ReembedMode)
    (existingChunk : Option StoredChunk) (chunkContent : String)
    (stats : IndexingStats) : Option Embedding × IndexingStats :=
  if chunkNeedsEmbedding mode existingChunk then
    match env.embed chunkContent with
    | some v =>
      (some v, { stats with embeddingsWritten := stats.embeddingsWritten + 1 })
    | Option.none => (Option.none, stats)
  else
    (existingChunk.bind StoredChunk.embedding, stats)

/-- The chunk loop of `processRow` (`for (let chunkIndex = 0; ...)`): read any
stored chunk, decide on (re)embedding, call the provider — swallowing its
failure — and upsert the chunk.  Store failures propagate and abort the
loop. -/
def processChunks (env : IndexerEnv) (mode : ReembedMode) (documentId : String) :
    List String → Nat → IndexingStats → ChunksResult
  | [], _, stats => ⟨stats, [], 0, Option.none⟩
  | chunkContent :: rest, chunkIndex, stats =>
    match env.getChunk documentId chunkIndex with
    | Except.error e => ⟨stats, [], 0, some e⟩
    | Except.ok existingChunk =>
      let step := embedStep env mode existingChunk chunkContent stats
      let calls : Nat := if chunkNeedsEmbedding mode existingChunk then 1 else 0
      match env.upsertChunk documentId chunkIndex chunkContent step.1 with
      | Except.error e => ⟨step.2, [], calls, some e⟩
      | Except.ok _ =>
        let stats2 := { step.2 with chunksCreated := step.2.chunksCreated + 1 }
        let r := processChunks env mode documentId rest (chunkIndex + 1) stats2
        ⟨r.stats, (chunkIndex, chunkContent, step.1) :: r.chunkUpserts,
          calls + r.embedCalls, r.error⟩

/-- Outcome of one `processRow` call: statistics after the call (the source
mutates `tableStats` in place, so updates made before an exception survive),
the writes and provider calls performed, and the uncaught exception if any. -/
structure RowResult where
  stats : IndexingStats
  docUpserts : Nat
  chunkUpserts : List (Nat × String × Option Embedding)
  embedCalls : Nat
  error : Option String
deriving DecidableEq, Repr

/-- Embedding of `RAGIndexer.processRow`: transform, skip empty content,
fingerprint and diff, upsert the document, chunk, then run the chunk loop. -/
def processRow (env : IndexerEnv) (mode : ReembedMode) (tableName : String)
    (row : Row) (stats : IndexingStats) : RowResult :=
  match env.transformRow tableName row with
  | Except.error e => ⟨stats, 0, [], 0, some e⟩
  | Except.ok sourceDoc =>
    if (trimString sourceDoc.content).length = 0 then
      ⟨stats, 0, [], 0, Option.none⟩
    else
      let contentHash := env.hash sourceDoc.content
      match env.getDocumentHash sourceDoc.source_table sourceDoc.source_id with
      | Except.error e => ⟨stats, 0, [], 0, some e⟩
      | Except.ok existingHash =>
        if existingHash = some contentHash ∧ mode = ReembedMode.none then
          ⟨stats, 0, [], 0, Option.none⟩
        else
          match env.upsertDocument sourceDoc contentHash with
          | Except.error e => ⟨stats, 0, [], 0, some e⟩
          | Except.ok documentId =>
            let stats1 :=
              { stats with documentsProcessed := stats.documentsProcessed + 1 }
            let chunks := chunkText sourceDoc.content 1200 200 800 1500
            let r := processChunks env mode documentId chunks 0 stats1
            ⟨r.stats, 1, r.chunkUpserts, r.embedCalls, r.error⟩

/-- Fresh per-collection statistics, as initialized by `processTable`. -/
def initialStats : IndexingStats :=
  { documentsProcessed := 0, chunksCreated := 0, embeddingsWritten := 0, errors := 0 }

/-- Row loop of `RAGIndexer.processTable` (`for (const row of rows)`): each
row is processed inside `try { ... } catch { tableStats.errors++ }`. -/
def processBatch (env : IndexerEnv) (mode : ReembedMode) (tableName : String) :
    List Row → IndexingStats → IndexingStats
  | [], stats => stats
  | row :: rest, stats =>
    let r := processRow env mode tableName row stats
    let stats2 :=
      match r.error with
      | some _ => { r.stats with errors := r.stats.errors + 1 }
      | Option.none => r.stats
    processBatch env mode tableName rest stats2

/-- Whether `processRow` raises for a given row (independent of the incoming
statistics, which the row logic never reads). -/
def rowFails (env : IndexerEnv) (mode : ReembedMode) (tableName : String)
    (row : Row) : Bool :=
  (processRow env mode tableName row initialStats).error.isSome

/-! ## Chunker theorems -/

/-- Final merge pass as worded by the specification: walk left to right,
merge the accumulated chunk with the next whenever their combined length is
strictly below `minSize`, emit it unchanged otherwise, and always emit the
last accumulated chunk. -/
def mergeSmallChunksSpec (minSize : Nat) : String → List String → List String
  | current, [] => [current]
  | current, next :: rest =>
    if current.length + next.length < minSize then
      mergeSmallChunksSpec minSize (current ++ " " ++ next) rest
    else
      current :: mergeSmallChunksSpec minSize next rest

theorem mergeLoop_eq_spec (minSize : Nat) (rest : List String) :
    ∀ merged current, mergeLoop minSize rest merged current =
      merged ++ mergeSmallChunksSpec minSize current rest := by
  induction rest with
  | nil => intro merged current; simp [mergeLoop, mergeSmallChunksSpec]
  | cons next rest ih =>
    intro merged current
    by_cases h : current.length + next.length < minSize
    · simp [mergeLoop, mergeSmallChunksSpec, h, ih]
    · simp [mergeLoop, mergeSmallChunksSpec, h, ih]

theorem mergeSmallChunks_eq_spec (minSize : Nat) (c0 : String) (rest : List String) :
    mergeSmallChunks (c0 :: rest) minSize = mergeSmallChunksSpec minSize c0 rest := by
  simpa [mergeSmallChunks] using mergeLoop_eq_spec minSize rest [] c0

theorem mergeSpec_length_pos (minSize : Nat) (rest : List String) :
    ∀ current, 0 < (mergeSmallChunksSpec minSize current rest).length := by
  induction rest with
  | nil => intro current; simp [mergeSmallChunksSpec]
  | cons next rest ih =>
    intro current
    by_cases h : current.length + next.length < minSize <;>
      simp [mergeSmallChunksSpec, h, ih]

/-- C5.  The final merge pass walks the chunk sequence left to right and
merges the accumulated chunk with the next chunk exactly when their combined
length is strictly less than `minSize`; otherwise the accumulated chunk is
emitted unchanged and accumulation restarts at the next chunk, and the last
accumulated chunk is always emitted: `mergeSmallChunks` coincides with the
recursive description `mergeSmallChunksSpec`. -/
theorem mergeSmallChunks_merges_below_minSize (minSize : Nat) (c0 : String)
    (rest : List String) :
    mergeSmallChunks (c0 :: rest) minSize = mergeSmallChunksSpec minSize c0 rest :=
  mergeSmallChunks_eq_spec minSize c0 rest

/-- Space join of a chunk sequence, the quantity preserved by the merge pass. -/
def joinSpace : List String → String
  | [] => ""
  | [c] => c
  | c :: c2 :: rest => c ++ " " ++ joinSpace (c2 :: rest)

theorem joinSpace_cons (c : String) (l : List String) (h : l ≠ []) :
    joinSpace (c :: l) = c ++ " " ++ joinSpace l := by
  cases l with
  | nil => exact absurd rfl h
  | cons x xs => rfl

theorem joinSpace_mergeSpec (minSize : Nat) (rest : List String) :
    ∀ current, joinSpace (mergeSmallChunksSpec minSize current rest) =
      joinSpace (current :: rest) := by
  induction rest with
  | nil => intro current; simp [mergeSmallChunksSpec]
  | cons next rest ih =>
    intro current
    by_cases h : current.length + next.length < minSize
    · rw [mergeSmallChunksSpec]
      simp only [h, if_true]
      rw [ih (current ++ " " ++ next)]
      cases rest with
      | nil => simp [joinSpace, String.append_assoc]
      | cons y ys => simp [joinSpace, String.append_assoc]
    · rw [mergeSmallChunksSpec]
      simp only [h, if_false]
      rw [joinSpace_cons current _ ?hne, ih next,
        joinSpace_cons current (next :: rest) (by simp)]
      case hne =>
        intro hnil
        have := mergeSpec_length_pos minSize rest next
        simp [hnil] at this

/-- C10.  The merge pass moves chunk boundaries but never drops, duplicates
or reorders content: for every nonempty input, joining the output of
`mergeSmallChunks` with single spaces equals joining the input with single
spaces. -/
theorem mergeSmallChunks_preserves_joined_content (c0 : String)
    (rest : List String) (minSize : Nat) :
    joinSpace (mergeSmallChunks (c0 :: rest) minSize) = joinSpace (c0 :: rest) := by
  rw [mergeSmallChunks_eq_spec, joinSpace_mergeSpec]

/-- C7.  A text no longer than `targetSize` is returned as the single-element
sequence `[text]`; in particular the empty string yields the single chunk
`""`. -/
theorem chunkText_short_text_single_chunk (text : String)
    (targetSize overlap minSize maxSize : Nat)
    (h : text.length ≤ targetSize) :
    chunkText text targetSize overlap minSize maxSize = [text] := by
  simp [chunkText, h]

/-- Witness for C7 at the empty string with the production parameters. -/
theorem chunkText_short_text_single_chunk_witness :
    chunkText "" 1200 200 800 1500 = [""] :=
  chunkText_short_text_single_chunk "" 1200 200 800 1500 (by decide)

theorem appendToLast_length_pos (l : List String) (currentChunk : String) :
    0 < (appendToLast l currentChunk).length := by
  match l with
  | [] => simp [appendToLast]
  | [last] => simp [appendToLast]
  | x :: y :: rest => simp [appendToLast]

theorem flushBuffer_length_pos (minSize : Nat) (chunks : List String)
    (currentChunk : String) : 0 < (flushBuffer minSize chunks currentChunk).length := by
  unfold flushBuffer
  by_cases h : currentChunk.length ≥ minSize
  · simp [h]
  · by_cases h2 : 0 < chunks.length
    · simpa [h, h2] using appendToLast_length_pos chunks currentChunk
    · simp [h, h2]

/-- C9.  For every input string and every choice of parameters, `chunkText`
returns at least one chunk — it never returns the empty sequence. -/
theorem chunkText_length_pos (text : String)
    (targetSize overlap minSize maxSize : Nat) :
    0 < (chunkText text targetSize overlap minSize maxSize).length := by
  unfold chunkText
  by_cases h : text.length ≤ targetSize
  · simp [h]
  · simp only [h, if_false]
    have hflush := flushBuffer_length_pos minSize
      ((splitIntoSentences text).foldl
        (sentenceStep targetSize minSize maxSize)
        { chunks := [], currentChunk := "" }).chunks
      ((splitIntoSentences text).foldl
        (sentenceStep targetSize minSize maxSize)
        { chunks := [], currentChunk := "" }).currentChunk
    obtain ⟨c, cs, hc⟩ := List.exists_cons_of_ne_nil (List.ne_nil_of_length_pos hflush)
    rw [hc]
    simp only [chunksWithOverlap, mergeSmallChunks_eq_spec]
    exact mergeSpec_length_pos minSize _ _

theorem appendToLast_append (xs : List String) (last currentChunk : String) :
    appendToLast (xs ++ [last]) currentChunk = xs ++ [last ++ " " ++ currentChunk] := by
  induction xs with
  | nil => rfl
  | cons x xs ih =>
    cases xs with
    | nil => simp [appendToLast]
    | cons y ys =>
      simp only [List.cons_append, appendToLast]
      exact congrArg (List.cons x) ih

/-- C6.  After all sentences are consumed, the remaining buffer is flushed:
emitted on its own when its length reaches `minSize`; otherwise space-joined
onto the previously emitted chunk when one exists; otherwise emitted as-is
even below `minSize`. -/
theorem chunkText_flush_cases (minSize : Nat) (prevChunks : List String)
    (last currentChunk : String) :
    (minSize ≤ currentChunk.length →
      ∀ chunks, flushBuffer minSize chunks currentChunk = chunks ++ [currentChunk]) ∧
    (currentChunk.length < minSize →
      flushBuffer minSize (prevChunks ++ [last]) currentChunk
        = prevChunks ++ [last ++ " " ++ currentChunk]) ∧
    (currentChunk.length < minSize →
      flushBuffer minSize [] currentChunk = [currentChunk]) := by
  refine ⟨fun h chunks => ?_, fun h => ?_, fun h => ?_⟩
  · simp [flushBuffer, h]
  · have h' : ¬ currentChunk.length ≥ minSize := by omega
    simp [flushBuffer, h', appendToLast_append]
  · have h' : ¬ currentChunk.length ≥ minSize := by omega
    simp [flushBuffer, h']

/-- Witness for C6: each flush case exercised at a concrete buffer. -/
theorem chunkText_flush_cases_witness :
    flushBuffer 2 ["xx"] "abc" = ["xx", "abc"] ∧
    flushBuffer 4 ["xx"] "a" = ["xx a"] ∧
    flushBuffer 4 [] "a" = ["a"] := by
  refine ⟨(chunkText_flush_cases 2 [] "xx" "abc").1 (by decide) ["xx"], ?_, ?_⟩
  · have h := (chunkText_flush_cases 4 [] "xx" "a").2.1 (by decide)
    simpa using h
  · exact (chunkText_flush_cases 4 [] "xx" "a").2.2 (by decide)

/-- C3 counterexample.  At the concrete loop state with buffer `"ab."` and
incoming sentence `"cd."` (parameters `target = 20`, `min = 2`, `max = 5`),
the appended buffer `"ab. cd."` exceeds `maxSize` and the buffer excluding
the sentence meets `minSize`, yet the step emits the full buffer including
the sentence — not the buffer excluding it — and restarts the buffer with
that same sentence, so `"cd."` appears both at the end of the emitted chunk
and at the start of the restarted buffer. -/
theorem sentenceStep_force_split_cex :
    5 < (joinIfNonempty "ab." "cd.").length ∧
    2 ≤ "ab.".length ∧
    (sentenceStep 20 2 5 { chunks := [], currentChunk := "ab." } "cd."
      == { chunks := ["ab."], currentChunk := "cd." }) = false ∧
    sentenceStep 20 2 5 { chunks := [], currentChunk := "ab." } "cd."
      = { chunks := ["ab. cd."], currentChunk := "cd." } := by
  decide

/-- C3 amended.  When the buffer with the just-added sentence appended stays
within `targetSize` but exceeds `maxSize`, and that full buffer meets
`minSize`, the sentence step emits the full buffer — including the just-added
sentence — and restarts the buffer with that same sentence, so the sentence
text is duplicated between the emitted chunk and the restarted buffer. -/
theorem sentenceStep_force_split_keeps_sentence (targetSize minSize maxSize : Nat)
    (st : ChunkState) (sentence : String)
    (hTarget : (joinIfNonempty st.currentChunk sentence).length ≤ targetSize)
    (hMax : maxSize < (joinIfNonempty st.currentChunk sentence).length)
    (hMin : minSize ≤ (joinIfNonempty st.currentChunk sentence).length) :
    sentenceStep targetSize minSize maxSize st sentence =
      { chunks := st.chunks ++ [joinIfNonempty st.currentChunk sentence],
        currentChunk := sentence } := by
  simp [sentenceStep, hTarget, hMax, hMin]

/-- Witness for the amended C3 at the counterexample's concrete state. -/
theorem sentenceStep_force_split_keeps_sentence_witness :
    sentenceStep 20 2 5 { chunks := [], currentChunk := "ab." } "cd."
      = { chunks := ["ab. cd."], currentChunk := "cd." } := by
  rw [sentenceStep_force_split_keeps_sentence 20 2 5
    { chunks := [], currentChunk := "ab." } "cd." (by decide) (by decide) (by decide)]
  decide

/-! ## Indexer theorems -/

/-- Re-embedding decision as worded by the claim: `all` always recomputes,
`missing` recomputes only when no embedding is stored at the position, and
`none` recomputes only when no chunk exists at the position at all. -/
def chunkNeedsEmbeddingSpec : ReembedMode → Option StoredChunk → Bool
  | ReembedMode.all, _ => true
  | ReembedMode.missing, c => (c.bind StoredChunk.embedding).isNone
  | ReembedMode.none, c => c.isNone

/-- C1 counterexample.  For a stored chunk that already has an embedding,
mode `missing` recomputes (`chunkNeedsEmbedding` is `true`) although the
claimed decision (`chunkNeedsEmbeddingSpec`) would reuse it; and under the
default mode `none` a stored chunk whose embedding is null is recomputed
although the claim says it is not. -/
theorem chunkNeedsEmbedding_cex :
    chunkNeedsEmbedding ReembedMode.missing
      (some { content := "x", embedding := some [0] }) = true ∧
    chunkNeedsEmbeddingSpec ReembedMode.missing
      (some { content := "x", embedding := some [0] }) = false ∧
    chunkNeedsEmbedding ReembedMode.none
      (some { content := "x", embedding := Option.none }) = true ∧
    chunkNeedsEmbeddingSpec ReembedMode.none
      (some { content := "x", embedding := Option.none }) = false := by
  decide

/-- C1 amended.  In the per-chunk decision of `processRow`, mode `all`
always recomputes; mode `missing` also always recomputes, regardless of what
is stored; and the default mode `none` recomputes exactly when there is no
existing chunk at the position or the existing chunk's stored embedding is
null (so only a stored chunk with a non-null embedding is reused). -/
theorem chunkNeedsEmbedding_characterization (existingChunk : Option StoredChunk) :
    chunkNeedsEmbedding ReembedMode.all existingChunk = true ∧
    chunkNeedsEmbedding ReembedMode.missing existingChunk = true ∧
    chunkNeedsEmbedding ReembedMode.none existingChunk
      = (existingChunk.bind StoredChunk.embedding).isNone := by
  simp [chunkNeedsEmbedding]

/-- C4.  When the stored fingerprint for the row's identity equals the
fingerprint of its canonical content and the mode is `none`, `processRow`
returns before any write: no document upsert, no chunk upsert, no
embedding-provider call and no statistics change. -/
theorem processRow_unchanged_skip (env : IndexerEnv) (tableName : String)
    (row : Row) (stats : IndexingStats) (sourceDoc : SourceDocument)
    (hTrans : env.transformRow tableName row = Except.ok sourceDoc)
    (hHash : env.getDocumentHash sourceDoc.source_table sourceDoc.source_id
      = Except.ok (some (env.hash sourceDoc.content))) :
    processRow env ReembedMode.none tableName row stats
      = ⟨stats, 0, [], 0, Option.none⟩ := by
  unfold processRow
  rw [hTrans]
  by_cases h : (trimString sourceDoc.content).length = 0
  · simp [h]
  · simp only [h, if_false]
    rw [hHash]
    simp

/-- Witness document and environment for C4: identity hash, stored
fingerprint matching the content. -/
def docC4 : SourceDocument :=
  { source_table := "press_release", source_id := "1",
    title := Option.none, content := "x" }

def envC4 : IndexerEnv :=
  { transformRow := fun _ _ => Except.ok docC4
    hash := fun s => s
    getDocumentHash := fun _ _ => Except.ok (some "x")
    upsertDocument := fun _ _ => Except.ok "doc"
    getChunk := fun _ _ => Except.ok Option.none
    embed := fun _ => Option.none
    upsertChunk := fun _ _ _ _ => Except.ok "chunk" }

/-- Witness for C4 at a concrete row with an unchanged fingerprint. -/
theorem processRow_unchanged_skip_witness :
    processRow envC4 ReembedMode.none "press_release" 0 initialStats
      = ⟨initialStats, 0, [], 0, Option.none⟩ :=
  processRow_unchanged_skip envC4 "press_release" 0 initialStats docC4 rfl rfl

/-- Witness document and environment for C2: a fresh store and an embedding
provider that always fails. -/
def docC2 : SourceDocument :=
  { source_table := "press_release", source_id := "2",
    title := Option.none, content := "hello world." }

def envC2 : IndexerEnv :=
  { transformRow := fun _ _ => Except.ok docC2
    hash := fun s => s ++ "#"
    getDocumentHash := fun _ _ => Except.ok Option.none
    upsertDocument := fun _ _ => Except.ok "doc"
    getChunk := fun _ _ => Except.ok Option.none
    embed := fun _ => Option.none
    upsertChunk := fun _ _ _ _ => Except.ok "chunk" }

/-- C2 counterexample.  Processing a row whose document chunks to
`["hello world."]` with an embedding provider that fails on that chunk: the
chunk is still upserted with a null embedding, the call is made, the row does
not raise — but the error counter stays at `0`, so the provider failure is
never recorded in the run's statistics (the claim requires exactly one
counted error per failing chunk). -/
theorem processRow_embed_failure_cex :
    (processRow envC2 ReembedMode.none "press_release" 0 initialStats).stats.errors
      = 0 ∧
    (processRow envC2 ReembedMode.none "press_release" 0 initialStats).chunkUpserts
      = [(0, "hello world.", Option.none)] ∧
    (processRow envC2 ReembedMode.none "press_release" 0 initialStats).embedCalls
      = 1 ∧
    (processRow envC2 ReembedMode.none "press_release" 0 initialStats).error
      = Option.none := by
  decide

theorem embedStep_fst (env : IndexerEnv) (mode : ReembedMode)
    (existingChunk : Option StoredChunk) (chunkContent : String)
    (stats : IndexingStats) :
    (embedStep env mode existingChunk chunkContent stats).1
      = (if chunkNeedsEmbedding mode existingChunk then env.embed chunkContent
         else existingChunk.bind StoredChunk.embedding) := by
  by_cases hneed : chunkNeedsEmbedding mode existingChunk <;>
    cases hemb : env.embed chunkContent <;>
    simp [embedStep, hneed, hemb]

theorem embedStep_snd_errors (env : IndexerEnv) (mode : ReembedMode)
    (existingChunk : Option StoredChunk) (chunkContent : String)
    (stats : IndexingStats) :
    (embedStep env mode existingChunk chunkContent stats).2.errors = stats.errors := by
  by_cases hneed : chunkNeedsEmbedding mode existingChunk <;>
    cases hemb : env.embed chunkContent <;>
    simp [embedStep, hneed, hemb]

/-- Embedding value each upserted chunk receives, as decided by the source's
per-chunk logic: the provider result on recompute (null on failure), the
stored embedding on reuse. -/
def chunkUpsertEmbedding (env : IndexerEnv) (mode : ReembedMode)
    (documentId : String) (chunkIndex : Nat) (content : String) :
    Option Embedding :=
  match env.getChunk documentId chunkIndex with
  | Except.error _ => Option.none
  | Except.ok existingChunk =>
    if chunkNeedsEmbedding mode existingChunk then env.embed content
    else existingChunk.bind StoredChunk.embedding

/-- C2 amended.  When the store operations succeed, the chunk loop never
raises and never touches the error counter — a provider failure is only
logged, not counted — while every chunk is still upserted, in order, with the
decided embedding (null for a chunk whose provider call failed). -/
theorem processChunks_embed_failure_tolerant (env : IndexerEnv)
    (mode : ReembedMode) (documentId : String) (chunks : List String)
    (startIndex : Nat) (stats : IndexingStats)
    (hGet : ∀ i, ∃ c, env.getChunk documentId i = Except.ok c)
    (hUp : ∀ i s e, ∃ cid, env.upsertChunk documentId i s e = Except.ok cid) :
    (processChunks env mode documentId chunks startIndex stats).error
      = Option.none ∧
    (processChunks env mode documentId chunks startIndex stats).stats.errors
      = stats.errors ∧
    (processChunks env mode documentId chunks startIndex stats).chunkUpserts
      = (chunks.enumFrom startIndex).map
          (fun p => (p.1, p.2, chunkUpsertEmbedding env mode documentId p.1 p.2)) := by
  induction chunks generalizing startIndex stats with
  | nil => simp [processChunks]
  | cons c rest ih =>
    obtain ⟨ec, hec⟩ := hGet startIndex
    obtain ⟨cid, hcid⟩ :=
      hUp startIndex c (embedStep env mode ec c stats).1
    have hspec : chunkUpsertEmbedding env mode documentId startIndex c
        = (embedStep env mode ec c stats).1 := by
      rw [embedStep_fst]
      simp [chunkUpsertEmbedding, hec]
    have hr := ih (startIndex + 1)
      { (embedStep env mode ec c stats).2 with
        chunksCreated := (embedStep env mode ec c stats).2.chunksCreated + 1 }
    refine ⟨?_, ?_, ?_⟩
    · simp only [processChunks, hec, hcid]
      exact hr.1
    · simp only [processChunks, hec, hcid]
      rw [hr.2.1]
      simpa using embedStep_snd_errors env mode ec c stats
    · simp only [processChunks, hec, hcid]
      rw [hr.2.2, ← hspec]
      simp [List.enumFrom]

/-- Witness for the amended C2: two chunks processed against the failing
provider of `envC2` — both upserted with null embeddings, zero errors, no
exception. -/
theorem processChunks_embed_failure_tolerant_witness :
    (processChunks envC2 ReembedMode.none "doc" ["a", "b"] 0 initialStats).error
      = Option.none ∧
    (processChunks envC2 ReembedMode.none "doc" ["a", "b"] 0
      initialStats).stats.errors = 0 ∧
    (processChunks envC2 ReembedMode.none "doc" ["a", "b"] 0
      initialStats).chunkUpserts
      = [(0, "a", Option.none), (1, "b", Option.none)] := by
  have h := processChunks_embed_failure_tolerant envC2 ReembedMode.none "doc"
    ["a", "b"] 0 initialStats (fun _ => ⟨Option.none, rfl⟩)
    (fun _ _ _ => ⟨"chunk", rfl⟩)
  refine ⟨h.1, ?_, ?_⟩
  · rw [h.2.1]
    rfl
  · rw [h.2.2]
    decide

theorem processChunks_errors_preserved (env : IndexerEnv) (mode : ReembedMode)
    (documentId : String) (chunks : List String) :
    ∀ startIndex stats,
      (processChunks env mode documentId chunks startIndex stats).stats.errors
        = stats.errors := by
  induction chunks with
  | nil => intro startIndex stats; rfl
  | cons c rest ih =>
    intro startIndex stats
    cases hec : env.getChunk documentId startIndex with
    | error e => simp [processChunks, hec]
    | ok ec =>
      cases hup : env.upsertChunk documentId startIndex c
          (embedStep env mode ec c stats).1 with
      | error e =>
        simp only [processChunks, hec, hup]
        exact embedStep_snd_errors env mode ec c stats
      | ok cid =>
        simp only [processChunks, hec, hup]
        rw [ih]
        simpa using embedStep_snd_errors env mode ec c stats

theorem processChunks_error_irrel (env : IndexerEnv) (mode : ReembedMode)
    (documentId : String) (chunks : List String) :
    ∀ startIndex s1 s2,
      (processChunks env mode documentId chunks startIndex s1).error
        = (processChunks env mode documentId chunks startIndex s2).error := by
  induction chunks with
  | nil => intro startIndex s1 s2; rfl
  | cons c rest ih =>
    intro startIndex s1 s2
    cases hec : env.getChunk documentId startIndex with
    | error e => simp [processChunks, hec]
    | ok ec =>
      have hfst : (embedStep env mode ec c s1).1 = (embedStep env mode ec c s2).1 := by
        rw [embedStep_fst, embedStep_fst]
      simp only [processChunks, hec, hfst]
      cases hup : env.upsertChunk documentId startIndex c
          (embedStep env mode ec c s2).1 with
      | error e => simp
      | ok cid => simpa using ih (startIndex + 1) _ _

theorem processRow_errors_preserved (env : IndexerEnv) (mode : ReembedMode)
    (tableName : String) (row : Row) (stats : IndexingStats) :
    (processRow env mode tableName row stats).stats.errors = stats.errors := by
  cases ht : env.transformRow tableName row with
  | error e => simp [processRow, ht]
  | ok doc =>
    by_cases htrim : (trimString doc.content).length = 0
    · simp [processRow, ht, htrim]
    · cases hh : env.getDocumentHash doc.source_table doc.source_id with
      | error e => simp [processRow, ht, htrim, hh]
      | ok eh =>
        by_cases hskip : eh = some (env.hash doc.content) ∧ mode = ReembedMode.none
        · simp [processRow, ht, htrim, hh, hskip]
        · cases hu : env.upsertDocument doc (env.hash doc.content) with
          | error e => simp [processRow, ht, htrim, hh, hskip, hu]
          | ok documentId =>
            simp only [processRow, ht, htrim, if_false, hh, hskip, hu]
            rw [processChunks_errors_preserved]

theorem processRow_error_irrel (env : IndexerEnv) (mode : ReembedMode)
    (tableName : String) (row : Row) (s1 s2 : IndexingStats) :
    (processRow env mode tableName row s1).error
      = (processRow env mode tableName row s2).error := by
  cases ht : env.transformRow tableName row with
  | error e => simp [processRow, ht]
  | ok doc =>
    by_cases htrim : (trimString doc.content).length = 0
    · simp [processRow, ht, htrim]
    · cases hh : env.getDocumentHash doc.source_table doc.source_id with
      | error e => simp [processRow, ht, htrim, hh]
      | ok eh =>
        by_cases hskip : eh = some (env.hash doc.content) ∧ mode = ReembedMode.none
        · simp [processRow, ht, htrim, hh, hskip]
        · cases hu : env.upsertDocument doc (env.hash doc.content) with
          | error e => simp [processRow, ht, htrim, hh, hskip, hu]
          | ok documentId =>
            simp only [processRow, ht, htrim, if_false, hh, hskip, hu]
            exact processChunks_error_irrel env mode documentId _ 0 _ _

/-- C8.  Every failure raised while processing a single row is caught inside
the batch loop and counted as exactly one error in the collection's
statistics (the row logic itself never touches the error counter), and
processing always continues with the remaining rows: the error counter after
a batch is the incoming counter plus the number of failing rows, and
processing a batch split anywhere equals processing its two parts in
sequence. -/
theorem processBatch_counts_each_failure (env : IndexerEnv) (mode : ReembedMode)
    (tableName : String) (rows : List Row) (stats : IndexingStats) :
    (processBatch env mode tableName rows stats).errors
      = stats.errors + rows.countP (rowFails env mode tableName) ∧
    ∀ rows2, processBatch env mode tableName (rows ++ rows2) stats
      = processBatch env mode tableName rows2
          (processBatch env mode tableName rows stats) := by
  induction rows generalizing stats with
  | nil => simp [processBatch]
  | cons row rest ih =>
    constructor
    · cases he : (processRow env mode tableName row stats).error with
      | none =>
        have hrf : rowFails env mode tableName row = false := by
          unfold rowFails
          rw [processRow_error_irrel env mode tableName row initialStats stats, he]
          rfl
        simp only [processBatch, he]
        rw [(ih _).1, processRow_errors_preserved, List.countP_cons, hrf]
        simp
      | some e =>
        have hrf : rowFails env mode tableName row = true := by
          unfold rowFails
          rw [processRow_error_irrel env mode tableName row initialStats stats, he]
          rfl
        have h2 := processRow_errors_preserved env mode tableName row stats
        simp only [processBatch, he]
        rw [(ih _).1, List.countP_cons, hrf]
        show (processRow env mode tableName row stats).stats.errors + 1
            + List.countP (rowFails env mode tableName) rest
          = stats.errors + (List.countP (rowFails env mode tableName) rest
            + if (true : Bool) = true then 1 else 0)
        rw [if_pos rfl, h2]
        omega
    · intro rows2
      simp only [List.cons_append, processBatch]
      exact (ih _).2 rows2
